import Mathlib

/-!
Verification development for the BTC staking reward-distribution core
of the babylon repository.

The repository ships an end-to-end test suite (`BtcRewardsDistribution`)
exercising the BTC delegation lifecycle, the covenant co-signing quorum,
the voting-power aggregation, and the reward-gauge engine.  The module
implementation itself is not part of the sources at hand, so the
operational definitions below are modelled from the specification text
and are marked as such; the e2e scenario constants (stake amounts
2, 4, 2 and later 6 units, the 0.1 percent assertion margin) are taken
from the test suite.
-/

namespace Babylon

/-- Delegation lifecycle status, as in the delegation state machine:
PENDING, ACTIVE, UNBONDING, EXPIRED, SLASHED. -/
inductive DelStatus
  | PENDING
  | ACTIVE
  | UNBONDING
  | EXPIRED
  | SLASHED
deriving DecidableEq, Repr

/-- Modelled from the spec: a BTCDelegation references one staker
address, at least one finality provider key, and an immutable staked
amount (satoshis), together with its lifecycle status.  Addresses and
keys are represented by natural numbers. -/
structure Delegation where
  staker : Nat
  fps : List Nat
  amount : Nat
  status : DelStatus
deriving DecidableEq, Repr

/-- A delegation counts toward voting power exactly when ACTIVE. -/
def Delegation.isActive (d : Delegation) : Bool :=
  d.status = DelStatus.ACTIVE

/-- The currently-active delegations out of a delegation set. -/
def activeDels (dels : List Delegation) : List Delegation :=
  dels.filter Delegation.isActive

/-- Stake a single delegation contributes to one finality provider:
its full amount when it references that provider, else nothing. -/
def fpStakeOf (d : Delegation) (fp : Nat) : Nat :=
  if fp ∈ d.fps then d.amount else 0

/-- Modelled from the spec: voting power of a finality provider key at
a height, the sum of staked amounts of all ACTIVE delegations that
reference it (each at its full amount, multi-staking included). -/
def fpPower (dels : List Delegation) (fp : Nat) : Nat :=
  ((activeDels dels).map (fun d => fpStakeOf d fp)).sum

/-- Modelled from the spec: voting power of a delegator address, the
sum of staked amounts of all its ACTIVE delegations, each delegation
counted exactly once however many finality providers it references. -/
def delPower (dels : List Delegation) (addr : Nat) : Nat :=
  ((activeDels dels).map (fun d => if d.staker = addr then d.amount else 0)).sum

/-- Merge one (address, stake) contribution into an association-list
voting-power table, accumulating onto an existing row when present. -/
def addStake (tbl : List (Nat × Nat)) (addr amt : Nat) : List (Nat × Nat) :=
  match tbl with
  | [] => [(addr, amt)]
  | (a, v) :: rest =>
      if a = addr then (a, v + amt) :: rest else (a, v) :: addStake rest addr amt

/-- Modelled from the spec: the delegator voting-power table, a fold
over the currently-active delegations producing one row per delegator
address. -/
def delPowerTable (dels : List Delegation) : List (Nat × Nat) :=
  (activeDels dels).foldl (fun tbl d => addStake tbl d.staker d.amount) []

/-- Stake recorded for an address in a voting-power table (0 when the
address has no row). -/
def lookupStake (tbl : List (Nat × Nat)) (addr : Nat) : Nat :=
  match tbl.find? (fun row => row.1 = addr) with
  | some row => row.2
  | none => 0

/-- Finality providers referenced by at least one active delegation,
each listed once. -/
def activeFps (dels : List Delegation) : List Nat :=
  (((activeDels dels).map Delegation.fps).flatten).dedup

/-- Total voting power across all active finality providers. -/
def totalPower (dels : List Delegation) : Nat :=
  ((activeFps dels).map (fpPower dels)).sum

/-- Modelled from the spec: stage-1 reward split.  A finality
provider's share of a block's pool is proportional to its voting
power, truncated toward zero. -/
def fpShare (pool : Nat) (dels : List Delegation) (fp : Nat) : Nat :=
  pool * fpPower dels fp / totalPower dels

/-- Delegator addresses with active stake to a given finality
provider, each listed once. -/
def delegatorsOf (dels : List Delegation) (fp : Nat) : List Nat :=
  (((activeDels dels).filter (fun d => decide (fp ∈ d.fps))).map Delegation.staker).dedup

/-- Active stake one delegator address has delegated to one specific
finality provider. -/
def delStakeTo (dels : List Delegation) (addr fp : Nat) : Nat :=
  ((activeDels dels).map
    (fun d => if d.staker = addr ∧ fp ∈ d.fps then d.amount else 0)).sum

/-- Modelled from the spec: stage-2 reward split.  Out of a finality
provider's stage-1 share, a delegator receives the part proportional
to its stake to that specific provider, truncated toward zero. -/
def delShareUnder (pool : Nat) (dels : List Delegation) (fp addr : Nat) : Nat :=
  fpShare pool dels fp * delStakeTo dels addr fp / fpPower dels fp

/-- Total reward a delegator address earns in one block: the sum of
its stage-2 sub-shares over every active finality provider. -/
def delTotalShare (pool : Nat) (dels : List Delegation) (addr : Nat) : Nat :=
  ((activeFps dels).map (fun fp => delShareUnder pool dels fp addr)).sum

/-- Modelled from the test helper RequireCoinsDiffInPointOnePercentMargin:
two amounts agree within a 0.1 percent margin when 1000 times their
absolute difference is at most the larger of the two. -/
def withinPointOnePercent (a b : Nat) : Prop :=
  1000 * ((a - b) + (b - a)) ≤ max a b

instance (a b : Nat) : Decidable (withinPointOnePercent a b) := by
  unfold withinPointOnePercent; infer_instance

/-- The three delegations of the reference scenario, in stake units:
2 to (fp1, del1), 4 to (fp1, del2), 2 to (fp2, del1), all ACTIVE.
Delegator del1 is address 1, del2 is address 2; finality provider fp1
is key 1, fp2 is key 2. -/
def scenario1 : List Delegation :=
  [⟨1, [1], 2, DelStatus.ACTIVE⟩,
   ⟨2, [1], 4, DelStatus.ACTIVE⟩,
   ⟨1, [2], 2, DelStatus.ACTIVE⟩]

/-- The reference scenario after the fourth delegation, 6 units to
(fp2, del2), has activated. -/
def scenario2 : List Delegation :=
  scenario1 ++ [⟨2, [2], 6, DelStatus.ACTIVE⟩]

/-- The three Bitcoin spend paths requiring covenant signatures:
staking-slashing, unbonding, unbonding-slashing. -/
inductive SpendPath
  | stakingSlashing
  | unbonding
  | unbondingSlashing
deriving DecidableEq, Repr, Fintype

/-- Modelled from the spec: a covenant signature batch from one
committee member, holding adaptor signatures on the two slashing paths
(per referenced finality-provider key) and a conventional signature on
the unbonding path.  Each Boolean records whether that component
verifies against the member's known public key and the path's
transaction digest. -/
structure CovBatch where
  member : Nat
  stakingSlashValid : Bool
  unbondValid : Bool
  unbondSlashValid : Bool
deriving DecidableEq, Repr

/-- A batch is accepted only if it verifies on all three required
spend paths. -/
def batchValid (b : CovBatch) : Bool :=
  b.stakingSlashValid && b.unbondValid && b.unbondSlashValid

/-- Modelled from the spec: a delegation as the covenant protocol sees
it: referenced finality-provider keys, accepted covenant signatures as
(member, path, fpKey) triples, and lifecycle status. -/
structure DelState where
  fps : List Nat
  covSigs : List (Nat × SpendPath × Nat)
  status : DelStatus
deriving DecidableEq, Repr

/-- Committee members that already have an accepted signature set. -/
def acceptedMembers (sigs : List (Nat × SpendPath × Nat)) : List Nat :=
  (sigs.map Prod.fst).dedup

/-- Number of distinct committee members with an accepted signature
for one spend path and one finality-provider key. -/
def sigCountDistinct (sigs : List (Nat × SpendPath × Nat)) (p : SpendPath) (fp : Nat) : Nat :=
  (((sigs.filter (fun s => decide (s.2.1 = p ∧ s.2.2 = fp))).map Prod.fst).dedup).length

/-- Modelled from the spec: quorum is reached when, for every required
spend path and every referenced finality-provider key, at least Q
distinct committee members have an accepted valid signature. -/
def quorumReached (Q : Nat) (fps : List Nat) (sigs : List (Nat × SpendPath × Nat)) : Prop :=
  ∀ p : SpendPath, ∀ fp ∈ fps, Q ≤ sigCountDistinct sigs p fp

instance (Q : Nat) (fps : List Nat) (sigs : List (Nat × SpendPath × Nat)) :
    Decidable (quorumReached Q fps sigs) := by
  unfold quorumReached
  infer_instance

/-- Errors of the covenant signature-submission operation. -/
inductive CovErr
  | invalidSignature
deriving DecidableEq, Repr

/-- Modelled from the spec: processing one covenant signature batch.
Submissions to a non-PENDING delegation and duplicate submissions from
an already-accepted member are silent no-ops; a batch failing
verification (or from an unknown member) is rejected without mutating
state; an accepted batch records signatures for every referenced
finality-provider key on all three paths, and the delegation leaves
PENDING for ACTIVE the moment quorum is reached. -/
def applyCovBatch (Q : Nat) (committee : List Nat) (d : DelState) (b : CovBatch) :
    Except CovErr DelState :=
  if d.status ≠ DelStatus.PENDING then .ok d
  else if b.member ∈ acceptedMembers d.covSigs then .ok d
  else if b.member ∈ committee ∧ batchValid b then
    let newSigs := d.covSigs
      ++ d.fps.map (fun fp => (b.member, SpendPath.stakingSlashing, fp))
      ++ d.fps.map (fun fp => (b.member, SpendPath.unbonding, fp))
      ++ d.fps.map (fun fp => (b.member, SpendPath.unbondingSlashing, fp))
    .ok { fps := d.fps, covSigs := newSigs,
          status := if quorumReached Q d.fps newSigs then DelStatus.ACTIVE
                    else DelStatus.PENDING }
  else .error CovErr.invalidSignature

/-- Coin amounts per denomination (denominations are numbered). -/
abbrev Coins := Nat → Nat

/-- Modelled from the spec: a reward gauge holds cumulative coins ever
credited and cumulative coins ever withdrawn. -/
structure RewardGauge where
  credited : Coins
  withdrawn : Coins

/-- A gauge before any credit: nothing credited, nothing withdrawn. -/
def emptyGauge : RewardGauge :=
  RewardGauge.mk (fun _ => 0) (fun _ => 0)

/-- The withdrawable balance of a gauge, per denomination. -/
def withdrawableCoins (g : RewardGauge) : Coins :=
  fun den => g.credited den - g.withdrawn den

/-- Credit coins to a gauge: only the credited ledger grows. -/
def creditGauge (g : RewardGauge) (c : Coins) : RewardGauge :=
  RewardGauge.mk (fun den => g.credited den + c den) g.withdrawn

/-- Modelled from the spec: withdrawal converts the withdrawable
balance into a transfer to the stakeholder's spendable balance minus
the transaction fee, and marks the gauge fully withdrawn, in one step.
Returns the new gauge and the new spendable balance. -/
def withdrawReward (g : RewardGauge) (bal fee : Coins) : RewardGauge × Coins :=
  (RewardGauge.mk g.credited g.credited,
    fun den => bal den + (g.credited den - g.withdrawn den) - fee den)

/-- A gauge-mutating operation: per-block crediting, or a withdrawal
(which moves withdrawn up to credited). -/
inductive GaugeOp
  | credit (c : Coins)
  | withdraw

/-- One gauge operation. -/
def applyGaugeOp (g : RewardGauge) : GaugeOp → RewardGauge
  | .credit c => creditGauge g c
  | .withdraw => RewardGauge.mk g.credited g.credited

/-- A sequence of gauge operations, applied in order. -/
def applyGaugeOps (g : RewardGauge) (ops : List GaugeOp) : RewardGauge :=
  ops.foldl applyGaugeOp g

/-- Modelled from the spec: chain state for reward processing: the
finality activation height (none until the first epoch is sealed and
finalized, then the boundary height of that epoch) and the reward
gauges of the two stakeholder types, keyed by address. -/
structure ChainState where
  activationHeight : Option Nat
  fpGauges : Nat → RewardGauge
  delGauges : Nat → RewardGauge

/-- Genesis chain state: no epoch finalized, all gauges empty. -/
def initialChain : ChainState :=
  ChainState.mk none (fun _ => emptyGauge) (fun _ => emptyGauge)

/-- Stage-1 share of a block pool as coins, per denomination. -/
def fpShareCoins (pool : Coins) (dels : List Delegation) (fp : Nat) : Coins :=
  fun den => fpShare (pool den) dels fp

/-- A delegator's total reward from a block pool as coins. -/
def delShareCoins (pool : Coins) (dels : List Delegation) (addr : Nat) : Coins :=
  fun den => delTotalShare (pool den) dels addr

/-- Modelled from the spec: process one reward-bearing block.  The
pool is distributed to the gauges only when an epoch has been sealed
and finalized and the block height has reached the activation height;
otherwise the state is untouched. -/
def processRewardBlock (st : ChainState) (height : Nat) (pool : Coins)
    (dels : List Delegation) : ChainState :=
  match st.activationHeight with
  | none => st
  | some h =>
      if height < h then st
      else ChainState.mk st.activationHeight
        (fun a => creditGauge (st.fpGauges a) (fpShareCoins pool dels a))
        (fun a => creditGauge (st.delGauges a) (delShareCoins pool dels a))

/-- Events driving the reward engine: a reward-bearing block, or the
sealing and finalization of an epoch whose boundary height activates
reward distribution. -/
inductive ChainEvent
  | rewardBlock (height : Nat) (pool : Coins) (dels : List Delegation)
  | finalizeEpoch (boundary : Nat)

/-- One chain event.  The first finalized epoch sets the activation
height to its boundary. -/
def processEvent (st : ChainState) : ChainEvent → ChainState
  | .rewardBlock height pool dels => processRewardBlock st height pool dels
  | .finalizeEpoch boundary =>
      match st.activationHeight with
      | none => ChainState.mk (some boundary) st.fpGauges st.delGauges
      | some _ => st

/-- A sequence of chain events, applied in order. -/
def processEvents (st : ChainState) (evts : List ChainEvent) : ChainState :=
  evts.foldl processEvent st

/-- Two active single-provider delegations of 1 unit each, used to
exhibit a zero truncated share under a tiny pool. -/
def cexDels : List Delegation :=
  [⟨1, [1], 1, DelStatus.ACTIVE⟩, ⟨2, [2], 1, DelStatus.ACTIVE⟩]

/-- An already-activated chain state with empty gauges. -/
def cexState : ChainState :=
  ChainState.mk (some 0) (fun _ => emptyGauge) (fun _ => emptyGauge)

/-- A pool of a single unit in denomination 0. -/
def cexPool : Coins := fun _ => 1

lemma withinPointOnePercent_mul (k a b : Nat) (h : withinPointOnePercent a b) :
    withinPointOnePercent (k * a) (k * b) := by
  unfold withinPointOnePercent at h ⊢
  rcases Nat.le_total a b with hab | hab
  · have h1 : k * a ≤ k * b := Nat.mul_le_mul_left k hab
    rw [Nat.max_eq_right hab] at h
    rw [Nat.max_eq_right h1]
    have h2 : (k * a - k * b) + (k * b - k * a) = k * ((a - b) + (b - a)) := by
      rw [Nat.mul_add, Nat.mul_sub, Nat.mul_sub]
    rw [h2]
    calc 1000 * (k * ((a - b) + (b - a)))
        = k * (1000 * ((a - b) + (b - a))) := by ring
      _ ≤ k * b := Nat.mul_le_mul_left k h
  · have h1 : k * b ≤ k * a := Nat.mul_le_mul_left k hab
    rw [Nat.max_eq_left hab] at h
    rw [Nat.max_eq_left h1]
    have h2 : (k * a - k * b) + (k * b - k * a) = k * ((a - b) + (b - a)) := by
      rw [Nat.mul_add, Nat.mul_sub, Nat.mul_sub]
    rw [h2]
    calc 1000 * (k * ((a - b) + (b - a)))
        = k * (1000 * ((a - b) + (b - a))) := by ring
      _ ≤ k * a := Nat.mul_le_mul_left k h

lemma fpShare_s1_fp1 (P : Nat) : fpShare P scenario1 1 = P * 6 / 8 := by
  unfold fpShare
  rw [show fpPower scenario1 1 = 6 from by decide,
    show totalPower scenario1 = 8 from by decide]

lemma fpShare_s1_fp2 (P : Nat) : fpShare P scenario1 2 = P * 2 / 8 := by
  unfold fpShare
  rw [show fpPower scenario1 2 = 2 from by decide,
    show totalPower scenario1 = 8 from by decide]

lemma delTotalShare_s1_del1 (P : Nat) :
    delTotalShare P scenario1 1 = (P * 6 / 8) * 2 / 6 + (P * 2 / 8) * 2 / 2 := by
  unfold delTotalShare delShareUnder fpShare
  rw [show activeFps scenario1 = [1, 2] from by decide]
  simp only [List.map_cons, List.map_nil, List.sum_cons, List.sum_nil, Nat.add_zero]
  rw [show fpPower scenario1 1 = 6 from by decide,
    show fpPower scenario1 2 = 2 from by decide,
    show totalPower scenario1 = 8 from by decide,
    show delStakeTo scenario1 1 1 = 2 from by decide,
    show delStakeTo scenario1 1 2 = 2 from by decide]

lemma delTotalShare_s1_del2 (P : Nat) :
    delTotalShare P scenario1 2 = (P * 6 / 8) * 4 / 6 + (P * 2 / 8) * 0 / 2 := by
  unfold delTotalShare delShareUnder fpShare
  rw [show activeFps scenario1 = [1, 2] from by decide]
  simp only [List.map_cons, List.map_nil, List.sum_cons, List.sum_nil, Nat.add_zero]
  rw [show fpPower scenario1 1 = 6 from by decide,
    show fpPower scenario1 2 = 2 from by decide,
    show totalPower scenario1 = 8 from by decide,
    show delStakeTo scenario1 2 1 = 4 from by decide,
    show delStakeTo scenario1 2 2 = 0 from by decide]

lemma fpShare_s2_fp1 (P : Nat) : fpShare P scenario2 1 = P * 6 / 14 := by
  unfold fpShare
  rw [show fpPower scenario2 1 = 6 from by decide,
    show totalPower scenario2 = 14 from by decide]

lemma fpShare_s2_fp2 (P : Nat) : fpShare P scenario2 2 = P * 8 / 14 := by
  unfold fpShare
  rw [show fpPower scenario2 2 = 8 from by decide,
    show totalPower scenario2 = 14 from by decide]

lemma delTotalShare_s2_del1 (P : Nat) :
    delTotalShare P scenario2 1 = (P * 6 / 14) * 2 / 6 + (P * 8 / 14) * 2 / 8 := by
  unfold delTotalShare delShareUnder fpShare
  rw [show activeFps scenario2 = [1, 2] from by decide]
  simp only [List.map_cons, List.map_nil, List.sum_cons, List.sum_nil, Nat.add_zero]
  rw [show fpPower scenario2 1 = 6 from by decide,
    show fpPower scenario2 2 = 8 from by decide,
    show totalPower scenario2 = 14 from by decide,
    show delStakeTo scenario2 1 1 = 2 from by decide,
    show delStakeTo scenario2 1 2 = 2 from by decide]

lemma delTotalShare_s2_del2 (P : Nat) :
    delTotalShare P scenario2 2 = (P * 6 / 14) * 4 / 6 + (P * 8 / 14) * 6 / 8 := by
  unfold delTotalShare delShareUnder fpShare
  rw [show activeFps scenario2 = [1, 2] from by decide]
  simp only [List.map_cons, List.map_nil, List.sum_cons, List.sum_nil, Nat.add_zero]
  rw [show fpPower scenario2 1 = 6 from by decide,
    show fpPower scenario2 2 = 8 from by decide,
    show totalPower scenario2 = 14 from by decide,
    show delStakeTo scenario2 2 1 = 4 from by decide,
    show delStakeTo scenario2 2 2 = 6 from by decide]

/-- C1: in the reference scenario with active delegations of 2, 4, 2
stake units to (fp1, del1), (fp1, del2), (fp2, del1), the cumulative
rewards over any number of reward-bearing blocks (per-block pool P)
credited to fp1 are 3 times those of fp2 and del1 equals del2, within
the test suite's 0.1 percent margin; after the fourth delegation of 6
units to (fp2, del2) activates, the cumulative reward ratio fp1:fp2 is
75:100 and del1:del2 is 40:100, each within the 0.1 percent margin. -/
theorem reference_scenario_reward_ratios (P k : Nat) (hP : 100000 ≤ P) (hk : 1 ≤ k) :
    withinPointOnePercent (k * fpShare P scenario1 1) (3 * (k * fpShare P scenario1 2)) ∧
    withinPointOnePercent (k * delTotalShare P scenario1 1) (k * delTotalShare P scenario1 2) ∧
    withinPointOnePercent (100 * (k * fpShare P scenario2 1)) (75 * (k * fpShare P scenario2 2)) ∧
    withinPointOnePercent (100 * (k * delTotalShare P scenario2 1)) (40 * (k * delTotalShare P scenario2 2)) := by
  refine ⟨?_, ?_, ?_, ?_⟩
  · rw [fpShare_s1_fp1, fpShare_s1_fp2,
      show 3 * (k * (P * 2 / 8)) = k * (3 * (P * 2 / 8)) from by ring]
    exact withinPointOnePercent_mul k _ _ (by unfold withinPointOnePercent; omega)
  · rw [delTotalShare_s1_del1, delTotalShare_s1_del2]
    exact withinPointOnePercent_mul k _ _ (by unfold withinPointOnePercent; omega)
  · rw [fpShare_s2_fp1, fpShare_s2_fp2,
      show 100 * (k * (P * 6 / 14)) = k * (100 * (P * 6 / 14)) from by ring,
      show 75 * (k * (P * 8 / 14)) = k * (75 * (P * 8 / 14)) from by ring]
    exact withinPointOnePercent_mul k _ _ (by unfold withinPointOnePercent; omega)
  · rw [delTotalShare_s2_del1, delTotalShare_s2_del2,
      show 100 * (k * ((P * 6 / 14) * 2 / 6 + (P * 8 / 14) * 2 / 8)) =
        k * (100 * ((P * 6 / 14) * 2 / 6 + (P * 8 / 14) * 2 / 8)) from by ring,
      show 40 * (k * ((P * 6 / 14) * 4 / 6 + (P * 8 / 14) * 6 / 8)) =
        k * (40 * ((P * 6 / 14) * 4 / 6 + (P * 8 / 14) * 6 / 8)) from by ring]
    exact withinPointOnePercent_mul k _ _ (by unfold withinPointOnePercent; omega)

/-- Witness for C1: the scenario ratios at a concrete per-block pool
of 1000000 units over 5 reward-bearing blocks. -/
theorem reference_scenario_reward_ratios_witness :
    withinPointOnePercent (5 * fpShare 1000000 scenario1 1) (3 * (5 * fpShare 1000000 scenario1 2)) ∧
    withinPointOnePercent (5 * delTotalShare 1000000 scenario1 1) (5 * delTotalShare 1000000 scenario1 2) ∧
    withinPointOnePercent (100 * (5 * fpShare 1000000 scenario2 1)) (75 * (5 * fpShare 1000000 scenario2 2)) ∧
    withinPointOnePercent (100 * (5 * delTotalShare 1000000 scenario2 1)) (40 * (5 * delTotalShare 1000000 scenario2 2)) :=
  reference_scenario_reward_ratios 1000000 5 (by decide) (by decide)

lemma div_add_div_le (a b T : Nat) : a / T + b / T ≤ (a + b) / T := by
  rcases Nat.eq_zero_or_pos T with hT | hT
  · simp [hT]
  · rw [Nat.le_div_iff_mul_le hT, Nat.add_mul]
    exact Nat.add_le_add (Nat.div_mul_le_self a T) (Nat.div_mul_le_self b T)

lemma sum_map_div_le (l : List Nat) (T : Nat) :
    (l.map (fun x => x / T)).sum ≤ l.sum / T := by
  induction l with
  | nil => simp
  | cons x l ih =>
      simp only [List.map_cons, List.sum_cons]
      exact le_trans (Nat.add_le_add_left ih (x / T)) (div_add_div_le x l.sum T)

lemma sum_map_addf {α : Type} (l : List α) (f g : α → Nat) :
    (l.map (fun x => f x + g x)).sum = (l.map f).sum + (l.map g).sum := by
  induction l with
  | nil => simp
  | cons x l ih => simp only [List.map_cons, List.sum_cons, ih]; ring

lemma sum_map_ite_unique (A : List Nat) (x v : Nat) (hA : A.Nodup) (hx : x ∈ A) :
    (A.map (fun a => if x = a then v else 0)).sum = v := by
  induction A with
  | nil => cases hx
  | cons a A ih =>
      simp only [List.map_cons, List.sum_cons]
      rcases List.mem_cons.mp hx with h | h
      · subst h
        rw [if_pos rfl]
        have hxA : x ∉ A := (List.nodup_cons.mp hA).1
        have hz : (A.map (fun a => if x = a then v else 0)).sum = 0 :=
          List.sum_eq_zero (by
            intro y hy
            rcases List.mem_map.mp hy with ⟨a', ha', rfl⟩
            refine if_neg ?_
            intro heq
            subst heq
            exact hxA ha')
        rw [hz]
        omega
      · have hxa : x ≠ a := by
          intro heq
          subst heq
          exact (List.nodup_cons.mp hA).1 h
        rw [if_neg hxa, ih (List.nodup_cons.mp hA).2 h, Nat.zero_add]

/-- Double counting: summing, over a duplicate-free list of addresses
covering every staker that delegates to fp, the per-address stake to
fp, recovers fp's total voting power from that delegation list. -/
lemma sum_over_addrs_eq_power (fp : Nat) (L : List Delegation) (A : List Nat)
    (hA : A.Nodup) (hcov : ∀ d ∈ L, fp ∈ d.fps → d.staker ∈ A) :
    (A.map (fun a =>
      (L.map (fun d => if d.staker = a ∧ fp ∈ d.fps then d.amount else 0)).sum)).sum
      = (L.map (fun d => fpStakeOf d fp)).sum := by
  induction L with
  | nil => simp
  | cons d L ih =>
      have hcov' : ∀ e ∈ L, fp ∈ e.fps → e.staker ∈ A := by
        intro e he hfp
        exact hcov e (List.mem_cons_of_mem d he) hfp
      simp only [List.map_cons, List.sum_cons]
      have hsplit := sum_map_addf A
        (fun a => if d.staker = a ∧ fp ∈ d.fps then d.amount else 0)
        (fun a => (L.map (fun e => if e.staker = a ∧ fp ∈ e.fps then e.amount else 0)).sum)
      rw [hsplit, ih hcov']
      congr 1
      by_cases hfp : fp ∈ d.fps
      · have hmem : d.staker ∈ A := hcov d (List.mem_cons_self d L) hfp
        have : (A.map (fun a => if d.staker = a ∧ fp ∈ d.fps then d.amount else 0)) =
            (A.map (fun a => if d.staker = a then d.amount else 0)) := by
          apply List.map_congr_left
          intro a _
          by_cases h : d.staker = a
          · simp [h, hfp]
          · simp [h]
        rw [this, sum_map_ite_unique A d.staker d.amount hA hmem]
        simp [fpStakeOf, hfp]
      · have : (A.map (fun a => if d.staker = a ∧ fp ∈ d.fps then d.amount else 0)) =
            (A.map (fun _ => 0)) := by
          apply List.map_congr_left
          intro a _
          simp [hfp]
        rw [this]
        simp [fpStakeOf, hfp]

lemma staker_mem_delegatorsOf {dels : List Delegation} {d : Delegation} {fp : Nat}
    (hd : d ∈ activeDels dels) (hfp : fp ∈ d.fps) : d.staker ∈ delegatorsOf dels fp := by
  unfold delegatorsOf
  apply List.mem_dedup.mpr
  apply List.mem_map.mpr
  refine ⟨d, ?_, rfl⟩
  apply List.mem_filter.mpr
  exact ⟨hd, by simp [hfp]⟩

/-- The per-delegator stakes to one finality provider, summed over all
its delegators, give back that provider's voting power. -/
lemma sum_delStakeTo_eq_fpPower (dels : List Delegation) (fp : Nat) :
    ((delegatorsOf dels fp).map (fun a => delStakeTo dels a fp)).sum = fpPower dels fp := by
  unfold delStakeTo fpPower
  exact sum_over_addrs_eq_power fp (activeDels dels) (delegatorsOf dels fp)
    (List.nodup_dedup _) (fun d hd hfp => staker_mem_delegatorsOf hd hfp)

/-- C5: reward conservation of the two-stage split.  For any block
pool and delegation set, the finality-provider shares sum to at most
the pool, and for every finality provider the delegator sub-shares sum
to at most that provider's stage-1 share; shares are truncated toward
zero and the remainder is left undistributed. -/
theorem reward_conservation (pool : Nat) (dels : List Delegation) :
    ((activeFps dels).map (fun fp => fpShare pool dels fp)).sum ≤ pool ∧
    ∀ fp, ((delegatorsOf dels fp).map (fun a => delShareUnder pool dels fp a)).sum ≤
      fpShare pool dels fp := by
  constructor
  · unfold fpShare
    have hmm : (activeFps dels).map (fun fp => pool * fpPower dels fp / totalPower dels)
        = ((activeFps dels).map (fun fp => pool * fpPower dels fp)).map
            (fun x => x / totalPower dels) := by
      rw [List.map_map]
      rfl
    rw [hmm]
    refine le_trans (sum_map_div_le _ _) ?_
    have hsum : ((activeFps dels).map (fun fp => pool * fpPower dels fp)).sum
        = pool * totalPower dels := by
      unfold totalPower
      exact List.sum_map_mul_left _ _ _
    rw [hsum]
    rcases Nat.eq_zero_or_pos (totalPower dels) with hT | hT
    · simp [hT]
    · rw [Nat.mul_div_cancel _ hT]
  · intro fp
    unfold delShareUnder
    have hmm : (delegatorsOf dels fp).map
          (fun a => fpShare pool dels fp * delStakeTo dels a fp / fpPower dels fp)
        = ((delegatorsOf dels fp).map
            (fun a => fpShare pool dels fp * delStakeTo dels a fp)).map
              (fun x => x / fpPower dels fp) := by
      rw [List.map_map]
      rfl
    rw [hmm]
    refine le_trans (sum_map_div_le _ _) ?_
    have hsum : ((delegatorsOf dels fp).map
        (fun a => fpShare pool dels fp * delStakeTo dels a fp)).sum
        = fpShare pool dels fp * fpPower dels fp := by
      have h1 := List.sum_map_mul_left (delegatorsOf dels fp)
        (fun a => delStakeTo dels a fp) (fpShare pool dels fp)
      rw [h1, sum_delStakeTo_eq_fpPower]
    rw [hsum]
    rcases Nat.eq_zero_or_pos (fpPower dels fp) with hP | hP
    · simp [hP]
    · rw [Nat.mul_div_cancel _ hP]

lemma lookupStake_nil (b : Nat) : lookupStake [] b = 0 := rfl

lemma lookupStake_cons (c v : Nat) (rest : List (Nat × Nat)) (b : Nat) :
    lookupStake ((c, v) :: rest) b = if c = b then v else lookupStake rest b := by
  by_cases h : c = b
  · simp [lookupStake, List.find?, h]
  · simp [lookupStake, List.find?, h]

lemma lookupStake_addStake (tbl : List (Nat × Nat)) (a x b : Nat) :
    lookupStake (addStake tbl a x) b = lookupStake tbl b + (if a = b then x else 0) := by
  induction tbl with
  | nil =>
      by_cases h : a = b
      · simp [addStake, lookupStake_cons, lookupStake_nil, h]
      · simp [addStake, lookupStake_cons, lookupStake_nil, h]
  | cons cv rest ih =>
      obtain ⟨c, v⟩ := cv
      by_cases hca : c = a
      · subst hca
        rw [show addStake ((c, v) :: rest) c x = (c, v + x) :: rest from by
          simp [addStake]]
        by_cases hcb : c = b
        · rw [lookupStake_cons, lookupStake_cons, if_pos hcb, if_pos hcb, if_pos hcb]
        · rw [lookupStake_cons, lookupStake_cons, if_neg hcb, if_neg hcb, if_neg hcb]
          omega
      · rw [show addStake ((c, v) :: rest) a x = (c, v) :: addStake rest a x from by
          simp [addStake, hca]]
        by_cases hcb : c = b
        · have hab : a ≠ b := fun hab => hca (hab ▸ hcb.symm ▸ rfl)
          rw [lookupStake_cons, lookupStake_cons, if_pos hcb, if_pos hcb, if_neg hab]
          omega
        · rw [lookupStake_cons, lookupStake_cons, if_neg hcb, if_neg hcb, ih]

lemma lookupStake_foldl (L : List Delegation) (tbl : List (Nat × Nat)) (b : Nat) :
    lookupStake (L.foldl (fun t d => addStake t d.staker d.amount) tbl) b
      = lookupStake tbl b + (L.map (fun d => if d.staker = b then d.amount else 0)).sum := by
  induction L generalizing tbl with
  | nil => simp
  | cons d L ih =>
      simp only [List.foldl_cons, List.map_cons, List.sum_cons]
      rw [ih, lookupStake_addStake]
      ring

/-- Table lookups agree with the specification sum: the stake recorded
for an address in the delegator voting-power table is the sum of that
address's active staked amounts, each delegation counted once. -/
lemma lookupStake_delPowerTable (dels : List Delegation) (a : Nat) :
    lookupStake (delPowerTable dels) a = delPower dels a := by
  unfold delPowerTable delPower
  rw [lookupStake_foldl, lookupStake_nil, Nat.zero_add]

lemma mem_keys_addStake (tbl : List (Nat × Nat)) (a x b : Nat) :
    b ∈ (addStake tbl a x).map Prod.fst ↔ b ∈ tbl.map Prod.fst ∨ b = a := by
  induction tbl with
  | nil => simp [addStake]
  | cons cv rest ih =>
      obtain ⟨c, v⟩ := cv
      by_cases hca : c = a
      · subst hca
        rw [show addStake ((c, v) :: rest) c x = (c, v + x) :: rest from by
          simp [addStake]]
        simp only [List.map_cons, List.mem_cons]
        constructor
        · rintro (h | h)
          · exact Or.inl (Or.inl h)
          · exact Or.inl (Or.inr h)
        · rintro ((h | h) | h)
          · exact Or.inl h
          · exact Or.inr h
          · subst h
            exact Or.inl rfl
      · rw [show addStake ((c, v) :: rest) a x = (c, v) :: addStake rest a x from by
          simp [addStake, hca]]
        simp only [List.map_cons, List.mem_cons, ih]
        tauto

lemma nodup_keys_addStake (tbl : List (Nat × Nat)) (a x : Nat)
    (h : (tbl.map Prod.fst).Nodup) : ((addStake tbl a x).map Prod.fst).Nodup := by
  induction tbl with
  | nil => simp [addStake]
  | cons cv rest ih =>
      obtain ⟨c, v⟩ := cv
      simp only [List.map_cons, List.nodup_cons] at h
      by_cases hca : c = a
      · subst hca
        rw [show addStake ((c, v) :: rest) c x = (c, v + x) :: rest from by
          simp [addStake]]
        simp only [List.map_cons, List.nodup_cons]
        exact h
      · rw [show addStake ((c, v) :: rest) a x = (c, v) :: addStake rest a x from by
          simp [addStake, hca]]
        simp only [List.map_cons, List.nodup_cons]
        refine ⟨?_, ih h.2⟩
        intro hmem
        rcases (mem_keys_addStake rest a x c).mp hmem with hk | hk
        · exact h.1 hk
        · exact hca hk

lemma nodup_keys_foldl (L : List Delegation) (tbl : List (Nat × Nat))
    (h : (tbl.map Prod.fst).Nodup) :
    (((L.foldl (fun t d => addStake t d.staker d.amount) tbl)).map Prod.fst).Nodup := by
  induction L generalizing tbl with
  | nil => exact h
  | cons d L ih =>
      simp only [List.foldl_cons]
      exact ih _ (nodup_keys_addStake tbl d.staker d.amount h)

lemma fpPower_perm {dels₁ dels₂ : List Delegation} (h : dels₁.Perm dels₂) (fp : Nat) :
    fpPower dels₁ fp = fpPower dels₂ fp :=
  ((h.filter _).map _).sum_eq

lemma delPower_perm {dels₁ dels₂ : List Delegation} (h : dels₁.Perm dels₂) (a : Nat) :
    delPower dels₁ a = delPower dels₂ a :=
  ((h.filter _).map _).sum_eq

lemma totalPower_perm {dels₁ dels₂ : List Delegation} (h : dels₁.Perm dels₂) :
    totalPower dels₁ = totalPower dels₂ := by
  unfold totalPower
  have h1 : (activeFps dels₁).map (fpPower dels₁) = (activeFps dels₁).map (fpPower dels₂) :=
    List.map_congr_left (fun fp _ => fpPower_perm h fp)
  rw [h1]
  exact (((((h.filter _).map _).flatten).dedup).map _).sum_eq

lemma fpPower_cons_active {d : Delegation} (l : List Delegation) (fp : Nat)
    (h : d.status = DelStatus.ACTIVE) :
    fpPower (d :: l) fp = fpStakeOf d fp + fpPower l fp := by
  unfold fpPower activeDels
  rw [List.filter_cons_of_pos (by simp [Delegation.isActive, h])]
  simp

lemma delPower_cons_active {d : Delegation} (l : List Delegation) (a : Nat)
    (h : d.status = DelStatus.ACTIVE) :
    delPower (d :: l) a = (if d.staker = a then d.amount else 0) + delPower l a := by
  unfold delPower activeDels
  rw [List.filter_cons_of_pos (by simp [Delegation.isActive, h])]
  simp

/-- C3: the voting-power aggregation reports each delegator address
exactly once (duplicate-free table keys), with value the sum of that
address's active staked amounts across all finality providers it
delegates to; an active delegation adds its full staked amount to the
power of each finality provider it references, but only once to its
delegator's aggregate. -/
theorem voting_power_aggregation (dels : List Delegation) :
    ((delPowerTable dels).map Prod.fst).Nodup ∧
    (∀ a, lookupStake (delPowerTable dels) a = delPower dels a) ∧
    ∀ d ∈ dels, d.status = DelStatus.ACTIVE →
      (∀ fp ∈ d.fps, fpPower dels fp = fpPower (dels.erase d) fp + d.amount) ∧
      delPower dels d.staker = delPower (dels.erase d) d.staker + d.amount := by
  refine ⟨nodup_keys_foldl _ _ (by simp), fun a => lookupStake_delPowerTable dels a, ?_⟩
  intro d hd hact
  have hperm := List.perm_cons_erase hd
  constructor
  · intro fp hfp
    rw [fpPower_perm hperm fp, fpPower_cons_active _ _ hact]
    unfold fpStakeOf
    rw [if_pos hfp]
    ring
  · rw [delPower_perm hperm d.staker, delPower_cons_active _ _ hact, if_pos rfl]
    ring

/-- Witness for C3: the aggregation facts at the concrete three
delegations of the reference scenario. -/
theorem voting_power_aggregation_witness :
    ((delPowerTable scenario1).map Prod.fst).Nodup ∧
    (∀ a, lookupStake (delPowerTable scenario1) a = delPower scenario1 a) ∧
    ∀ d ∈ scenario1, d.status = DelStatus.ACTIVE →
      (∀ fp ∈ d.fps, fpPower scenario1 fp = fpPower (scenario1.erase d) fp + d.amount) ∧
      delPower scenario1 d.staker = delPower (scenario1.erase d) d.staker + d.amount :=
  voting_power_aggregation scenario1

/-- C7: the voting-power tables computed from two delegation sets that
hold the same delegations in a different order (any activation order)
are identical: same power per finality provider, same power per
delegator address, same total, same table lookups. -/
theorem voting_power_determinism (dels₁ dels₂ : List Delegation) (h : dels₁.Perm dels₂) :
    (∀ fp, fpPower dels₁ fp = fpPower dels₂ fp) ∧
    (∀ a, delPower dels₁ a = delPower dels₂ a) ∧
    totalPower dels₁ = totalPower dels₂ ∧
    (∀ a, lookupStake (delPowerTable dels₁) a = lookupStake (delPowerTable dels₂) a) := by
  refine ⟨fpPower_perm h, delPower_perm h, totalPower_perm h, fun a => ?_⟩
  rw [lookupStake_delPowerTable, lookupStake_delPowerTable, delPower_perm h]

/-- Witness for C7: the reference scenario delegations activated in
reverse order produce the same voting-power table. -/
theorem voting_power_determinism_witness :
    (∀ fp, fpPower scenario1 fp = fpPower scenario1.reverse fp) ∧
    (∀ a, delPower scenario1 a = delPower scenario1.reverse a) ∧
    totalPower scenario1 = totalPower scenario1.reverse ∧
    (∀ a, lookupStake (delPowerTable scenario1) a =
      lookupStake (delPowerTable scenario1.reverse) a) :=
  voting_power_determinism scenario1 scenario1.reverse (by decide)

/-- C2: a PENDING delegation (quorum not yet reached) transitions to
ACTIVE under a covenant signature submission exactly when, afterwards,
every one of the three spend paths has, for every referenced
finality-provider key, valid accepted signatures from at least Q
distinct committee members; with fewer than Q on any path or key it
stays PENDING. -/
theorem pending_activation_iff_quorum (Q : Nat) (committee : List Nat)
    (d d' : DelState) (b : CovBatch)
    (hp : d.status = DelStatus.PENDING)
    (hq : ¬ quorumReached Q d.fps d.covSigs)
    (h : applyCovBatch Q committee d b = Except.ok d') :
    d'.status = DelStatus.ACTIVE ↔ quorumReached Q d'.fps d'.covSigs := by
  unfold applyCovBatch at h
  rw [if_neg (by simp [hp])] at h
  by_cases hdup : b.member ∈ acceptedMembers d.covSigs
  · rw [if_pos hdup] at h
    obtain rfl : d = d' := by
      simpa using h
    rw [hp]
    constructor
    · intro hc
      exact absurd hc (by decide)
    · intro hc
      exact absurd hc hq
  · rw [if_neg hdup] at h
    by_cases hacc : b.member ∈ committee ∧ batchValid b
    · rw [if_pos hacc] at h
      set ns := d.covSigs
        ++ d.fps.map (fun fp => (b.member, SpendPath.stakingSlashing, fp))
        ++ d.fps.map (fun fp => (b.member, SpendPath.unbonding, fp))
        ++ d.fps.map (fun fp => (b.member, SpendPath.unbondingSlashing, fp)) with hns
      have hd' : d' = DelState.mk d.fps ns
          (if quorumReached Q d.fps ns then DelStatus.ACTIVE else DelStatus.PENDING) :=
        ((Except.ok.injEq _ _).mp h).symm
      rw [hd']
      by_cases hquo : quorumReached Q d.fps ns
      · constructor
        · intro _
          exact hquo
        · intro _
          show (if quorumReached Q d.fps ns then DelStatus.ACTIVE
            else DelStatus.PENDING) = DelStatus.ACTIVE
          rw [if_pos hquo]
      · constructor
        · intro hact
          have hact' : (if quorumReached Q d.fps ns then DelStatus.ACTIVE
              else DelStatus.PENDING) = DelStatus.ACTIVE := hact
          rw [if_neg hquo] at hact'
          exact absurd hact' (by decide)
        · intro hq2
          exact absurd (show quorumReached Q d.fps ns from hq2) hquo
    · rw [if_neg hacc] at h
      cases h

/-- Witness for C2: with quorum Q = 1 and one referenced key, a single
valid batch activates the concrete pending delegation. -/
theorem pending_activation_iff_quorum_witness :
    (DelState.mk [1]
      [(1, SpendPath.stakingSlashing, 1), (1, SpendPath.unbonding, 1),
        (1, SpendPath.unbondingSlashing, 1)] DelStatus.ACTIVE).status = DelStatus.ACTIVE ↔
    quorumReached 1 [1]
      (DelState.mk [1]
        [(1, SpendPath.stakingSlashing, 1), (1, SpendPath.unbonding, 1),
          (1, SpendPath.unbondingSlashing, 1)] DelStatus.ACTIVE).covSigs :=
  pending_activation_iff_quorum 1 [1]
    (DelState.mk [1] [] DelStatus.PENDING)
    (DelState.mk [1]
      [(1, SpendPath.stakingSlashing, 1), (1, SpendPath.unbonding, 1),
        (1, SpendPath.unbondingSlashing, 1)] DelStatus.ACTIVE)
    (CovBatch.mk 1 true true true) (by decide) (by decide) (by rfl)

/-- C8: a covenant signature submission from a member whose signature
set was already accepted is a silent no-op: not an error, the
delegation state (and hence every accepted-signature count) unchanged. -/
theorem duplicate_covenant_member_noop (Q : Nat) (committee : List Nat)
    (d : DelState) (b : CovBatch)
    (hdup : b.member ∈ acceptedMembers d.covSigs) :
    applyCovBatch Q committee d b = Except.ok d := by
  unfold applyCovBatch
  by_cases hs : d.status = DelStatus.PENDING
  · rw [if_neg (by simp [hs]), if_pos hdup]
  · rw [if_pos (by simp [hs])]

/-- Witness for C8: resubmitting member 1's signatures to a concrete
pending delegation that already accepted them changes nothing. -/
theorem duplicate_covenant_member_noop_witness :
    applyCovBatch 2 [1, 2]
      (DelState.mk [1]
        [(1, SpendPath.stakingSlashing, 1), (1, SpendPath.unbonding, 1),
          (1, SpendPath.unbondingSlashing, 1)] DelStatus.PENDING)
      (CovBatch.mk 1 true true true) =
    Except.ok (DelState.mk [1]
      [(1, SpendPath.stakingSlashing, 1), (1, SpendPath.unbonding, 1),
        (1, SpendPath.unbondingSlashing, 1)] DelStatus.PENDING) :=
  duplicate_covenant_member_noop 2 [1, 2]
    (DelState.mk [1]
      [(1, SpendPath.stakingSlashing, 1), (1, SpendPath.unbonding, 1),
        (1, SpendPath.unbondingSlashing, 1)] DelStatus.PENDING)
    (CovBatch.mk 1 true true true) (by decide)

/-- C4: withdrawal transfers exactly the withdrawable balance
(credited minus withdrawn) less the transaction fee to the spendable
balance and sets withdrawn equal to credited, in one atomic step: no
partial withdrawal remains and, with the fee covered, the transfer
equation holds exactly with no truncation. -/
theorem withdraw_transfers_exact_balance (g : RewardGauge) (bal fee : Coins)
    (hw : ∀ den, g.withdrawn den ≤ g.credited den)
    (hf : ∀ den, fee den ≤ bal den + withdrawableCoins g den) :
    (withdrawReward g bal fee).1.withdrawn = g.credited ∧
    (withdrawReward g bal fee).1.credited = g.credited ∧
    (∀ den, withdrawableCoins (withdrawReward g bal fee).1 den = 0) ∧
    (∀ den, (withdrawReward g bal fee).2 den + fee den
      = bal den + (g.credited den - g.withdrawn den)) ∧
    (∀ den, (withdrawReward g bal fee).2 den + fee den + g.withdrawn den
      = bal den + g.credited den) := by
  refine ⟨rfl, rfl, fun den => Nat.sub_self _, fun den => ?_, fun den => ?_⟩
  · have h1 := hf den
    unfold withdrawableCoins at h1
    show bal den + (g.credited den - g.withdrawn den) - fee den + fee den
      = bal den + (g.credited den - g.withdrawn den)
    omega
  · have h1 := hf den
    have h2 := hw den
    unfold withdrawableCoins at h1
    show bal den + (g.credited den - g.withdrawn den) - fee den + fee den + g.withdrawn den
      = bal den + g.credited den
    omega

/-- Witness for C4: withdrawal of a concrete gauge with 7 credited and
2 already withdrawn, balance 100, fee 3. -/
theorem withdraw_transfers_exact_balance_witness :
    (withdrawReward (RewardGauge.mk (fun _ => 7) (fun _ => 2)) (fun _ => 100)
      (fun _ => 3)).1.withdrawn = (RewardGauge.mk (fun _ => 7) (fun _ => 2)).credited ∧
    (withdrawReward (RewardGauge.mk (fun _ => 7) (fun _ => 2)) (fun _ => 100)
      (fun _ => 3)).1.credited = (RewardGauge.mk (fun _ => 7) (fun _ => 2)).credited ∧
    (∀ den, withdrawableCoins (withdrawReward (RewardGauge.mk (fun _ => 7) (fun _ => 2))
      (fun _ => 100) (fun _ => 3)).1 den = 0) ∧
    (∀ den, (withdrawReward (RewardGauge.mk (fun _ => 7) (fun _ => 2)) (fun _ => 100)
      (fun _ => 3)).2 den + (fun _ => 3) den
      = (fun _ => 100) den + ((RewardGauge.mk (fun _ => 7) (fun _ => 2)).credited den
        - (RewardGauge.mk (fun _ => 7) (fun _ => 2)).withdrawn den)) ∧
    (∀ den, (withdrawReward (RewardGauge.mk (fun _ => 7) (fun _ => 2)) (fun _ => 100)
      (fun _ => 3)).2 den + (fun _ => 3) den
        + (RewardGauge.mk (fun _ => 7) (fun _ => 2)).withdrawn den
      = (fun _ => 100) den + (RewardGauge.mk (fun _ => 7) (fun _ => 2)).credited den) :=
  withdraw_transfers_exact_balance (RewardGauge.mk (fun _ => 7) (fun _ => 2))
    (fun _ => 100) (fun _ => 3)
    (fun den => by show (2 : Nat) ≤ 7; decide)
    (fun den => by show (3 : Nat) ≤ 100 + (7 - 2); decide)

lemma applyGaugeOps_cons (g : RewardGauge) (op : GaugeOp) (ops : List GaugeOp) :
    applyGaugeOps g (op :: ops) = applyGaugeOps (applyGaugeOp g op) ops := rfl

/-- C6: across any sequence of crediting and withdrawal operations on
a gauge satisfying the invariant, withdrawn stays at most credited in
every denomination, and the credited ledger never decreases. -/
theorem gauge_invariant_and_monotone (g : RewardGauge) (ops : List GaugeOp)
    (hw : ∀ den, g.withdrawn den ≤ g.credited den) :
    (∀ den, (applyGaugeOps g ops).withdrawn den ≤ (applyGaugeOps g ops).credited den) ∧
    (∀ den, g.credited den ≤ (applyGaugeOps g ops).credited den) := by
  induction ops generalizing g with
  | nil => exact ⟨hw, fun den => Nat.le_refl _⟩
  | cons op ops ih =>
      rw [applyGaugeOps_cons]
      cases op with
      | credit c =>
          have hstep : ∀ den, (creditGauge g c).withdrawn den ≤ (creditGauge g c).credited den :=
            fun den => Nat.le_trans (hw den) (Nat.le_add_right _ _)
          refine ⟨(ih (creditGauge g c) hstep).1, fun den => ?_⟩
          exact Nat.le_trans (Nat.le_add_right _ _) ((ih (creditGauge g c) hstep).2 den)
      | withdraw =>
          have hstep : ∀ den, (RewardGauge.mk g.credited g.credited).withdrawn den ≤
              (RewardGauge.mk g.credited g.credited).credited den :=
            fun den => Nat.le_refl _
          exact ⟨(ih _ hstep).1, (ih _ hstep).2⟩

/-- Witness for C6: the invariant and monotonicity after a concrete
credit of 5 followed by a withdrawal, starting from the empty gauge. -/
theorem gauge_invariant_and_monotone_witness :
    (∀ den, (applyGaugeOps emptyGauge [GaugeOp.credit (fun _ => 5), GaugeOp.withdraw]).withdrawn den
      ≤ (applyGaugeOps emptyGauge [GaugeOp.credit (fun _ => 5), GaugeOp.withdraw]).credited den) ∧
    (∀ den, emptyGauge.credited den
      ≤ (applyGaugeOps emptyGauge [GaugeOp.credit (fun _ => 5), GaugeOp.withdraw]).credited den) :=
  gauge_invariant_and_monotone emptyGauge [GaugeOp.credit (fun _ => 5), GaugeOp.withdraw]
    (fun den => Nat.le_refl 0)

/-- C9: no rewards are ever credited before the first epoch is sealed
and finalized — a trace containing no epoch finalization leaves the
state (hence every gauge) untouched, whatever active delegations its
reward blocks carry — and once the activation height is set, blocks
below that epoch-boundary height distribute nothing. -/
theorem epoch_gating :
    (∀ (st : ChainState) (evts : List ChainEvent),
      st.activationHeight = none →
      (∀ e ∈ evts, ∀ b, e ≠ ChainEvent.finalizeEpoch b) →
      processEvents st evts = st) ∧
    (∀ (st : ChainState) (h height : Nat) (pool : Coins) (dels : List Delegation),
      st.activationHeight = some h → height < h →
      processRewardBlock st height pool dels = st) := by
  constructor
  · intro st evts
    induction evts generalizing st with
    | nil => intro _ _; rfl
    | cons e evts ih =>
        intro hact hnof
        have hstep : processEvent st e = st := by
          cases e with
          | rewardBlock height pool dels =>
              show processRewardBlock st height pool dels = st
              unfold processRewardBlock
              rw [hact]
          | finalizeEpoch b =>
              exact absurd rfl (hnof _ (List.mem_cons_self _ _) b)
        show processEvents (processEvent st e) evts = st
        rw [hstep]
        exact ih st hact (fun e' he' => hnof e' (List.mem_cons_of_mem e he'))
  · intro st h height pool dels hact hlt
    unfold processRewardBlock
    rw [hact]
    simp only [if_pos hlt]

/-- Witness for C9: a finalization-free trace of two reward blocks
over the active reference delegations credits nothing, and with
activation height 10 a reward block at height 5 is a no-op. -/
theorem epoch_gating_witness :
    processEvents initialChain
      [ChainEvent.rewardBlock 3 (fun _ => 1000) scenario1,
        ChainEvent.rewardBlock 4 (fun _ => 1000) scenario1] = initialChain ∧
    processRewardBlock
      (ChainState.mk (some 10) (fun _ => emptyGauge) (fun _ => emptyGauge))
      5 (fun _ => 1000) scenario1
      = ChainState.mk (some 10) (fun _ => emptyGauge) (fun _ => emptyGauge) :=
  ⟨epoch_gating.1 initialChain
      [ChainEvent.rewardBlock 3 (fun _ => 1000) scenario1,
        ChainEvent.rewardBlock 4 (fun _ => 1000) scenario1] rfl
      (by
        intro e he b
        rcases List.mem_cons.mp he with h1 | h1
        · subst h1
          exact fun hcon => ChainEvent.noConfusion hcon
        · rw [List.mem_singleton] at h1
          subst h1
          exact fun hcon => ChainEvent.noConfusion hcon),
    epoch_gating.2
      (ChainState.mk (some 10) (fun _ => emptyGauge) (fun _ => emptyGauge))
      10 5 (fun _ => 1000) scenario1 rfl (by decide)⟩

/-- C10 counterexample: after activation, a reward-bearing block with
a 1-unit pool and a finality provider of nonzero voting power (1 of 2
total) credits that provider's gauge zero coins: 1 * 1 / 2 truncates
to zero, so the gauge is not strictly positive. -/
theorem small_pool_zero_credit_counterexample :
    0 < cexPool 0 ∧
    0 < fpPower cexDels 1 ∧
    cexState.activationHeight = some 0 ∧
    ((processRewardBlock cexState 1 cexPool cexDels).fpGauges 1).credited 0 = 0 := by
  refine ⟨by decide, by decide, rfl, ?_⟩
  show (creditGauge (cexState.fpGauges 1) (fpShareCoins cexPool cexDels 1)).credited 0 = 0
  show (cexState.fpGauges 1).credited 0 + fpShare (cexPool 0) cexDels 1 = 0
  decide

/-- C10 (amended): after the activation height is reached, one reward
block credits a strictly positive amount in a denomination to every
finality provider whose proportional pool share in that denomination
is at least one unit, and to every delegator with at least a one-unit
sub-share under some active provider; without the pool covering one
unit per stakeholder, the truncated share can be zero. -/
theorem positive_credit_after_activation (st : ChainState) (h height : Nat)
    (pool : Coins) (dels : List Delegation) (den : Nat)
    (hact : st.activationHeight = some h) (hh : h ≤ height) :
    (∀ fp, 0 < totalPower dels →
      totalPower dels ≤ pool den * fpPower dels fp →
      0 < ((processRewardBlock st height pool dels).fpGauges fp).credited den) ∧
    (∀ a fp, fp ∈ activeFps dels → 0 < fpPower dels fp →
      fpPower dels fp ≤ fpShare (pool den) dels fp * delStakeTo dels a fp →
      0 < ((processRewardBlock st height pool dels).delGauges a).credited den) := by
  have hred : processRewardBlock st height pool dels = ChainState.mk (some h)
      (fun a => creditGauge (st.fpGauges a) (fpShareCoins pool dels a))
      (fun a => creditGauge (st.delGauges a) (delShareCoins pool dels a)) := by
    unfold processRewardBlock
    rw [hact]
    show (if height < h then st else ChainState.mk (some h)
      (fun a => creditGauge (st.fpGauges a) (fpShareCoins pool dels a))
      (fun a => creditGauge (st.delGauges a) (delShareCoins pool dels a))) = _
    rw [if_neg (Nat.not_lt.mpr hh)]
  rw [hred]
  constructor
  · intro fp hT hcov
    show 0 < (st.fpGauges fp).credited den + fpShare (pool den) dels fp
    have h1 : 1 ≤ fpShare (pool den) dels fp := by
      unfold fpShare
      rw [Nat.one_le_div_iff hT]
      exact hcov
    omega
  · intro a fp hfp hPf hcov
    show 0 < (st.delGauges a).credited den + delTotalShare (pool den) dels a
    have h1 : 1 ≤ delShareUnder (pool den) dels fp a := by
      unfold delShareUnder
      rw [Nat.one_le_div_iff hPf]
      exact hcov
    have h2 : delShareUnder (pool den) dels fp a ≤ delTotalShare (pool den) dels a := by
      unfold delTotalShare
      exact List.single_le_sum (fun x _ => Nat.zero_le x) _
        (List.mem_map.mpr ⟨fp, hfp, rfl⟩)
    omega

/-- Witness for C10 (amended): with a 1000-unit pool over the
reference delegations, both finality providers and both delegators
have positive gauges after one eligible block. -/
theorem positive_credit_after_activation_witness :
    (∀ fp, 0 < totalPower scenario1 →
      totalPower scenario1 ≤ (fun _ => 1000 : Coins) 0 * fpPower scenario1 fp →
      0 < ((processRewardBlock cexState 1 (fun _ => 1000) scenario1).fpGauges fp).credited 0) ∧
    (∀ a fp, fp ∈ activeFps scenario1 → 0 < fpPower scenario1 fp →
      fpPower scenario1 fp ≤
        fpShare ((fun _ => 1000 : Coins) 0) scenario1 fp * delStakeTo scenario1 a fp →
      0 < ((processRewardBlock cexState 1 (fun _ => 1000) scenario1).delGauges a).credited 0) :=
  positive_credit_after_activation cexState 0 1 (fun _ => 1000) scenario1 0 rfl
    (by decide)

end Babylon
